import Mathlib

/-!
Shallow embedding of the adaptive radix tree internal-node family from
src/include/art/detail/art_nodes.h (basic_inode_impl and the four variants
basic_inode_4 / basic_inode_16 / basic_inode_48 / basic_inode_256).

Modelling conventions:
* machine bytes are Nat values below 256; the one-byte children_count field
  wraps modulo 256 (inc8 / dec8 below);
* node pointers are tagged values (NodePtr); the parent back-reference,
  position-in-parent and path-compression prefix of the node a pointer
  designates live in an explicit heap of headers (Heap), and the source's
  assign_parent / reparent / shift_left calls update that heap;
* SIMD scans of the source (compare-equal mask plus count-trailing-zeros,
  and the free-slot scan of basic_inode_48::add) are modelled by scanFrom,
  which returns the first index of a window satisfying a predicate;
* in-place array shift loops are modelled by their net effect on the array,
  restricted to exactly the index window the source loop touches.
-/

namespace ArtNodes

/-- node_type of the source: the tag carried in the low bits of a node pointer. -/
inductive NodeType where
  | LEAF
  | I4
  | I16
  | I48
  | I256
deriving DecidableEq, Repr

/-- Modelled from the spec: the tagged node pointer (spec section 3) of
art_node_base.h, which is not under src/.  It bundles a raw pointer with a
node-type tag; the null tagged pointer is distinct from every tagged
non-null pointer. -/
inductive NodePtr where
  | null
  | node (addr : Nat) (tag : NodeType)
deriving DecidableEq, Repr

/-- True exactly when the pointer carries the LEAF tag (node.tag() == node_type::LEAF). -/
def NodePtr.isLeafTagged : NodePtr → Bool
  | .node _ .LEAF => true
  | _ => false

/-- Raw address of a tagged pointer (node_ptr::get). -/
def NodePtr.addr : NodePtr → Nat
  | .null => 0
  | .node a _ => a

/-- Modelled from the spec: the iterator triple (child, index-in-parent, parent)
manufactured by this core (spec section 6); the iterator type itself is a Db
collaborator not under src/. -/
structure Iter where
  node : NodePtr
  index : Nat
  parent : NodePtr
deriving DecidableEq, Repr

/-- Modelled from the spec: the header data of a node reachable through a
pointer — its path-compression prefix (the bitwise_key of art_node_base.h,
not under src/), its parent back-reference and its position in the parent. -/
structure Header where
  pfx : List Nat
  parent : NodePtr
  pos : Nat
deriving DecidableEq, Repr

/-- Heap of node headers, indexed by raw address.  Writes through child
pointers (assign_parent, reparent, shift_left) land here. -/
abbrev Heap := Nat → Header

/-- Pointwise array update; models a single in-place store to an array slot. -/
def upd {α : Type} (f : Nat → α) (a : Nat) (v : α) : Nat → α :=
  fun x => if x = a then v else f x

/-- basic_inode_impl::assign_parent: set parent back-reference and
position-in-parent of the node at address a. -/
def assignParent (h : Heap) (a : Nat) (p : NodePtr) (i : Nat) : Heap :=
  fun x => if x = a then { h x with parent := p, pos := i } else h x

/-- basic_inode::reparent: a no-op on leaf-tagged pointers, otherwise
assign_parent on the designated node with the caller as the new parent. -/
def reparent (self : NodePtr) (h : Heap) (c : NodePtr) (i : Nat) : Heap :=
  if c.isLeafTagged then h else assignParent h c.addr self i

/-- Modelled from the spec: bitwise_key::shift_left with a byte argument
(spec sections 4.C and 6; art_node_base.h is not under src/): prepend one
byte to the prefix of the node at address a. -/
def shiftLeftByte (h : Heap) (a : Nat) (k : Nat) : Heap :=
  fun x => if x = a then { h x with pfx := k :: (h x).pfx } else h x

/-- Modelled from the spec: bitwise_key::shift_left with a prefix argument
(spec sections 4.C and 6): prepend a whole prefix to the prefix of the node
at address a. -/
def shiftLeftKey (h : Heap) (a : Nat) (p : List Nat) : Heap :=
  fun x => if x = a then { h x with pfx := p ++ (h x).pfx } else h x

/-- First index i in the window [start, start + fuel) with p i = true, and
start + fuel when there is none.  This models the source's
count-trailing-zeros of a match mask as well as its linear scans. -/
def scanFrom (p : Nat → Bool) (start : Nat) : Nat → Nat
  | 0 => start
  | f + 1 => if p start then start else scanFrom p (start + 1) f

/-- One-byte increment: ++ on the uint8_t children_count field. -/
def inc8 (c : Nat) : Nat := (c + 1) % 256

/-- One-byte decrement: -- on the uint8_t children_count field. -/
def dec8 (c : Nat) : Nat := (c + 255) % 256

/-- basic_inode_impl::num_children: the stored byte, with 0 encoding 256. -/
def num_children (c : Nat) : Nat := if c ≠ 0 then c else 256

/-! ### Node layouts

Arrays are total functions on Nat; only indices below the capacity are
meaningful, and only the populated region described by the source invariants
is observable. -/

/-- basic_inode_4: sorted keys[4] (overlaid with a u32), children[4], plus
the common inode fields (prefix, parent back-reference, children_count). -/
structure Node4 where
  keys : Nat → Nat
  children : Nat → NodePtr
  children_count : Nat
  pfx : List Nat
  parent : NodePtr

/-- basic_inode_16: sorted keys[16] (overlaid with a 128-bit SIMD register),
children[16], plus the common inode fields. -/
structure Node16 where
  keys : Nat → Nat
  children : Nat → NodePtr
  children_count : Nat
  pfx : List Nat
  parent : NodePtr

/-- basic_inode_48: child_indices[256] byte table mapping key byte to slot
index (0xFF = empty_child meaning absent), children[48] slot array
(children_union::pointer_array), plus the common inode fields. -/
structure Node48 where
  child_indices : Nat → Nat
  children : Nat → NodePtr
  children_count : Nat
  pfx : List Nat
  parent : NodePtr

/-- basic_inode_256: direct-indexed children[256]; absence is a null
tagged pointer. -/
structure Node256 where
  children : Nat → NodePtr
  children_count : Nat
  pfx : List Nat
  parent : NodePtr

/-! ### basic_inode_4 operations -/

/-- basic_inode_4::is_full (capacity 4). -/
def Node4.is_full (n : Node4) : Bool := n.children_count == 4

/-- basic_inode_4::is_min_size (min size 2). -/
def Node4.is_min_size (n : Node4) : Bool := n.children_count == 2

/-- Insert position computed by basic_inode_4::add: the branchless sum of
the three packed-u32 byte compares, the third gated on children_count == 3. -/
def Node4.insert_pos (n : Node4) (b : Nat) : Nat :=
  (if n.keys 0 < b then 1 else 0) + (if n.keys 1 < b then 1 else 0) +
    (if n.children_count = 3 ∧ n.keys 2 < b then 1 else 0)

/-- basic_inode_4::add: shift keys and children one slot right from the
insert position (the source loop runs i = children_count down to
insert_pos + 1, copying slot i-1 to slot i and reparenting the shifted
child with its new index i), store the new key byte and a LEAF-tagged
pointer at the insert position, increment children_count.  Returns the new
node, the updated heap, and iterator (children[insert_pos], insert_pos, self). -/
def Node4.add (self : NodePtr) (n : Node4) (h : Heap) (leafAddr : Nat) (b : Nat) :
    Node4 × Heap × Iter :=
  let p := n.insert_pos b
  let keys' : Nat → Nat := fun i =>
    if i < p then n.keys i
    else if i = p then b
    else if i ≤ n.children_count then n.keys (i - 1)
    else n.keys i
  let children' : Nat → NodePtr := fun i =>
    if i < p then n.children i
    else if i = p then NodePtr.node leafAddr .LEAF
    else if i ≤ n.children_count then n.children (i - 1)
    else n.children i
  let h' := ((List.range' (p + 1) (n.children_count - p)).reverse).foldl
    (fun hh i => reparent self hh (n.children (i - 1)) i) h
  ({ n with keys := keys', children := children', children_count := inc8 n.children_count },
   h', ⟨children' p, p, self⟩)

/-- basic_inode_4::remove: shift keys and children one slot left (the source
loop runs i = child_index up to children_count - 2, copying slot i+1 to
slot i and reparenting the shifted child with its new index i), decrement
children_count. -/
def Node4.remove (self : NodePtr) (n : Node4) (h : Heap) (idx : Nat) : Node4 × Heap :=
  let keys' : Nat → Nat := fun i =>
    if idx ≤ i ∧ i < n.children_count - 1 then n.keys (i + 1) else n.keys i
  let children' : Nat → NodePtr := fun i =>
    if idx ≤ i ∧ i < n.children_count - 1 then n.children (i + 1) else n.children i
  let h' := (List.range' idx (n.children_count - 1 - idx)).foldl
    (fun hh i => reparent self hh (n.children (i + 1)) i) h
  ({ n with keys := keys', children := children', children_count := dec8 n.children_count }, h')

/-- basic_inode_4::leave_last_child: return children[1 - child_to_delete];
when that survivor is not leaf-tagged, prepend the separator byte
keys[1 - child_to_delete] and then this node's prefix onto the survivor's
prefix (two shift_left calls) and clear its parent to the null pointer. -/
def Node4.leave_last_child (n : Node4) (h : Heap) (toDelete : Nat) : NodePtr × Heap :=
  let keep := 1 - toDelete
  let c := n.children keep
  if c.isLeafTagged then (c, h)
  else
    let h1 := shiftLeftByte h c.addr (n.keys keep)
    let h2 := shiftLeftKey h1 c.addr n.pfx
    (c, assignParent h2 c.addr NodePtr.null 0)

/-- basic_inode_4::find_child (SSE2 path): compare-equal of the replicated
search byte against the packed key bytes, masked to children_count bits;
count-trailing-zeros of the mask yields the lowest matching index. -/
def Node4.find_child (self : NodePtr) (n : Node4) (b : Nat) : Option Iter :=
  let i := scanFrom (fun i => n.keys i == b) 0 n.children_count
  if i < n.children_count then some ⟨n.children i, i, self⟩ else none

/-- basic_inode_4::leftmost_child. -/
def Node4.leftmost_child (self : NodePtr) (n : Node4) (start : Nat) : Option Iter :=
  if start < n.children_count then some ⟨n.children start, start, self⟩ else none

/-- basic_inode_4::replace: overwrite the child slot at pos.index() and
reparent the new child with that index. -/
def Node4.replace (self : NodePtr) (n : Node4) (h : Heap) (pos : Iter) (child : NodePtr) :
    Node4 × Heap :=
  ({ n with children := upd n.children pos.index child }, reparent self h child pos.index)

/-- basic_inode_4::add_two_to_empty: place the smaller key at index 0 and the
other at index 1, store both children (the second one LEAF-tagged), zero the
two unused key bytes, reparent child1 at its landing index, and return the
iterator of the second child.  children_count stays at its seeded value 2. -/
def Node4.add_two_to_empty (self : NodePtr) (n : Node4) (h : Heap) (k1 : Nat) (c1 : NodePtr)
    (k2 : Nat) (leaf2Addr : Nat) : Node4 × Heap × Iter :=
  let i1 : Nat := if k1 < k2 then 0 else 1
  let i2 : Nat := if i1 = 0 then 1 else 0
  let keys' := upd (upd (upd (upd n.keys i1 k1) i2 k2) 2 0) 3 0
  let children' := upd (upd n.children i1 c1) i2 (NodePtr.node leaf2Addr .LEAF)
  ({ n with keys := keys', children := children' },
   reparent self h c1 i1, ⟨children' i2, i2, self⟩)

/-- Shrink constructor basic_inode_4(source: basic_inode_16, child_to_delete):
copy the five source entries skipping child_to_delete, reparenting each
copied child at its landing index; the basic_inode base constructor sets
children_count to the Node4 capacity 4, copies the source prefix and leaves
the parent back-reference null. -/
def Node4.ofNode16 (self : NodePtr) (src : Node16) (h : Heap) (toDelete : Nat) :
    Node4 × Heap :=
  let idxs := (List.range 5).filter (fun i => !(i == toDelete))
  let keys' : Nat → Nat := fun i => src.keys (idxs.getD i 0)
  let children' : Nat → NodePtr := fun i => src.children (idxs.getD i 0)
  let h' := (List.range 4).foldl (fun hh i => reparent self hh (children' i) i) h
  ({ keys := keys', children := children', children_count := 4,
     pfx := src.pfx, parent := NodePtr.null }, h')

/-! ### basic_inode_16 operations -/

/-- basic_inode_16::is_full (capacity 16). -/
def Node16.is_full (n : Node16) : Bool := n.children_count == 16

/-- basic_inode_16::is_min_size (min size 5). -/
def Node16.is_min_size (n : Node16) : Bool := n.children_count == 5

/-- basic_inode_16::get_sorted_key_array_insert_position (SSE2 path):
compare less-or-equal of the replicated insert byte against the key vector
(via max-equality), masked to children_count bits; count-trailing-zeros of
the mask gives the first index whose key is at least the byte, and
children_count when the mask is empty. -/
def Node16.get_sorted_key_array_insert_position (n : Node16) (b : Nat) : Nat :=
  scanFrom (fun i => decide (b ≤ n.keys i)) 0 n.children_count

/-- basic_inode_16::add: locate the insert position; when it is not the
append position, shift the tails of keys and children one slot right
(copy_backward), reparenting each shifted child with its new index i + 1;
write the new key byte and LEAF-tagged pointer; increment children_count. -/
def Node16.add (self : NodePtr) (n : Node16) (h : Heap) (leafAddr : Nat) (b : Nat) :
    Node16 × Heap × Iter :=
  let p := n.get_sorted_key_array_insert_position b
  let keys' : Nat → Nat := fun i =>
    if i < p then n.keys i
    else if i = p then b
    else if i ≤ n.children_count then n.keys (i - 1)
    else n.keys i
  let children' : Nat → NodePtr := fun i =>
    if i < p then n.children i
    else if i = p then NodePtr.node leafAddr .LEAF
    else if i ≤ n.children_count then n.children (i - 1)
    else n.children i
  let h' := (List.range' p (n.children_count - p)).foldl
    (fun hh i => reparent self hh (n.children i) (i + 1)) h
  ({ n with keys := keys', children := children', children_count := inc8 n.children_count },
   h', ⟨children' p, p, self⟩)

/-- basic_inode_16::remove: shift keys and children one slot left from
child_index + 1, reparenting each shifted child with its new index, and
decrement children_count. -/
def Node16.remove (self : NodePtr) (n : Node16) (h : Heap) (idx : Nat) : Node16 × Heap :=
  let keys' : Nat → Nat := fun i =>
    if idx ≤ i ∧ i < n.children_count - 1 then n.keys (i + 1) else n.keys i
  let children' : Nat → NodePtr := fun i =>
    if idx ≤ i ∧ i < n.children_count - 1 then n.children (i + 1) else n.children i
  let h' := (List.range' idx (n.children_count - 1 - idx)).foldl
    (fun hh i => reparent self hh (n.children (i + 1)) i) h
  ({ n with keys := keys', children := children', children_count := dec8 n.children_count }, h')

/-- basic_inode_16::find_child (SSE2, mandatory in the source): compare-equal
mask of the replicated search byte against the 128-bit key vector, masked to
children_count bits; count-trailing-zeros gives the lowest matching index. -/
def Node16.find_child (self : NodePtr) (n : Node16) (b : Nat) : Option Iter :=
  let i := scanFrom (fun i => n.keys i == b) 0 n.children_count
  if i < n.children_count then some ⟨n.children i, i, self⟩ else none

/-- basic_inode_16::leftmost_child. -/
def Node16.leftmost_child (self : NodePtr) (n : Node16) (start : Nat) : Option Iter :=
  if start < n.children_count then some ⟨n.children start, start, self⟩ else none

/-- basic_inode_16::replace. -/
def Node16.replace (self : NodePtr) (n : Node16) (h : Heap) (pos : Iter) (child : NodePtr) :
    Node16 × Heap :=
  ({ n with children := upd n.children pos.index child }, reparent self h child pos.index)

/-- Grow populate basic_inode_16::populate(source: full basic_inode_4, leaf,
key_byte): merge the four sorted source keys with the new byte at the
position given by four packed-u32 compares, reparenting every carried-over
child at its landing index; children_count stays at the seeded min size 5.
Returns the new node, the heap, and the iterator of the inserted leaf. -/
def Node16.populate (self : NodePtr) (src : Node4) (h : Heap) (leafAddr : Nat) (b : Nat) :
    Node16 × Heap × Iter :=
  let p := (if src.keys 0 < b then 1 else 0) + (if src.keys 1 < b then 1 else 0) +
    (if src.keys 2 < b then 1 else 0) + (if src.keys 3 < b then 1 else 0)
  let keys' : Nat → Nat := fun i =>
    if i < p then src.keys i
    else if i = p then b
    else if i ≤ 4 then src.keys (i - 1)
    else 0
  let children' : Nat → NodePtr := fun i =>
    if i < p then src.children i
    else if i = p then NodePtr.node leafAddr .LEAF
    else if i ≤ 4 then src.children (i - 1)
    else NodePtr.null
  let h1 := (List.range' 0 p).foldl (fun hh i => reparent self hh (src.children i) i) h
  let h2 := (List.range' (p + 1) (4 - p)).foldl
    (fun hh i => reparent self hh (src.children (i - 1)) i) h1
  ({ keys := keys', children := children', children_count := 5,
     pfx := src.pfx, parent := NodePtr.null },
   h2, ⟨children' p, p, self⟩)

/-- Shrink constructor basic_inode_16(source: basic_inode_48, child_to_delete):
clear child_indices[child_to_delete] to empty_child, then scan the table
from byte 0 upward, emitting each live entry (byte value as key, pointer
from the source slot array) into the new sorted arrays and reparenting it at
its landing index, until 16 children are collected; the base constructor
sets children_count to the Node16 capacity 16. -/
def Node16.ofNode48 (self : NodePtr) (src : Node48) (h : Heap) (toDelete : Nat) :
    Node16 × Heap :=
  let ci := upd src.child_indices toDelete 255
  let live := ((List.range 256).filter (fun a => !(ci a == 255))).take 16
  let keys' : Nat → Nat := fun i => live.getD i 0
  let children' : Nat → NodePtr := fun i => src.children (ci (live.getD i 0))
  let h' := (List.range 16).foldl (fun hh i => reparent self hh (children' i) i) h
  ({ keys := keys', children := children', children_count := 16,
     pfx := src.pfx, parent := NodePtr.null }, h')

/-! ### basic_inode_48 operations -/

/-- basic_inode_48::is_full (capacity 48). -/
def Node48.is_full (n : Node48) : Bool := n.children_count == 48

/-- basic_inode_48::is_min_size (min size 17). -/
def Node48.is_min_size (n : Node48) : Bool := n.children_count == 17

/-- Free-slot scan of basic_inode_48::add: the first null entry of the
48-slot child array (SSE4.2 packed pointer-lane comparison against zero, or
the scalar linear scan). -/
def Node48.first_free_slot (n : Node48) : Nat :=
  scanFrom (fun i => n.children i == NodePtr.null) 0 48

/-- basic_inode_48::add: write the LEAF-tagged pointer into the first free
slot, record that slot in child_indices[key_byte], increment children_count;
the returned iterator carries the key byte (not the slot) as its index.
The scan loop does not terminate when no slot is free, modelled by none. -/
def Node48.add (self : NodePtr) (n : Node48) (leafAddr : Nat) (b : Nat) :
    Option (Node48 × Iter) :=
  let s := n.first_free_slot
  if s < 48 then
    some ({ n with
              children := upd n.children s (NodePtr.node leafAddr .LEAF),
              child_indices := upd n.child_indices b s,
              children_count := inc8 n.children_count },
          ⟨NodePtr.node leafAddr .LEAF, b, self⟩)
  else none

/-- basic_inode_48::remove: null the slot designated by
child_indices[child_index], set that table entry to empty_child, decrement
children_count. -/
def Node48.remove (n : Node48) (b : Nat) : Node48 :=
  { n with
    children := upd n.children (n.child_indices b) NodePtr.null,
    child_indices := upd n.child_indices b 255,
    children_count := dec8 n.children_count }

/-- basic_inode_48::find_child: a single table lookup; empty when
child_indices[key_byte] is empty_child, otherwise the child at the
designated slot with the key byte as the iterator index. -/
def Node48.find_child (self : NodePtr) (n : Node48) (b : Nat) : Option Iter :=
  if n.child_indices b ≠ 255 then some ⟨n.children (n.child_indices b), b, self⟩ else none

/-- basic_inode_48::leftmost_child: linear scan of child_indices from start
to 255, returning the first present entry with its key byte as index. -/
def Node48.leftmost_child (self : NodePtr) (n : Node48) (start : Nat) : Option Iter :=
  let bb := scanFrom (fun a => !(n.child_indices a == 255)) start (256 - start)
  if bb < 256 then some ⟨n.children (n.child_indices bb), bb, self⟩ else none

/-- basic_inode_48::replace: overwrite the slot mapped by the key byte
pos.index() and reparent the new child with the key byte as its index. -/
def Node48.replace (self : NodePtr) (n : Node48) (h : Heap) (pos : Iter) (child : NodePtr) :
    Node48 × Heap :=
  ({ n with children := upd n.children (n.child_indices pos.index) child },
   reparent self h child pos.index)

/-- Grow populate basic_inode_48::populate(source: full basic_inode_16, leaf,
key_byte): initialize child_indices to empty_child; for each of the 16
source entries set child_indices[source key byte] to the slot i, copy the
child, and reparent it with the key byte as its position; place the new leaf
at slot 16, record it in the table, null slots 17..47; children_count stays
at the seeded min size 17.  The iterator carries the key byte as index. -/
def Node48.populate (self : NodePtr) (src : Node16) (h : Heap) (leafAddr : Nat) (b : Nat) :
    Node48 × Heap × Iter :=
  let ci0 : Nat → Nat :=
    (List.range 16).foldl (fun f i => upd f (src.keys i) i) (fun _ => 255)
  let children' : Nat → NodePtr := fun j =>
    if j < 16 then src.children j
    else if j = 16 then NodePtr.node leafAddr .LEAF
    else NodePtr.null
  let h' := (List.range 16).foldl
    (fun hh i => reparent self hh (src.children i) (src.keys i)) h
  ({ child_indices := upd ci0 b 16, children := children', children_count := 17,
     pfx := src.pfx, parent := NodePtr.null },
   h', ⟨NodePtr.node leafAddr .LEAF, b, self⟩)

/-- Shrink constructor basic_inode_48(source: basic_inode_256,
child_to_delete): null the deleted child in the source, initialize
child_indices to empty_child, then scan the 256 source entries compacting
live children into the first slots in ascending byte order, reparenting each
with its key byte; the base constructor sets children_count to the Node48
capacity 48. -/
def Node48.ofNode256 (self : NodePtr) (src : Node256) (h : Heap) (toDelete : Nat) :
    Node48 × Heap :=
  let ch := upd src.children toDelete NodePtr.null
  let live := ((List.range 256).filter (fun a => !(ch a == NodePtr.null))).take 48
  let ci : Nat → Nat := fun a => (live.findIdx? (fun x => x == a)).getD 255
  let children' : Nat → NodePtr := fun j => ch (live.getD j 256)
  let h' := live.foldl (fun hh a => reparent self hh (ch a) a) h
  ({ child_indices := ci, children := children', children_count := 48,
     pfx := src.pfx, parent := NodePtr.null }, h')

/-! ### basic_inode_256 operations -/

/-- basic_inode_256::is_min_size (min size 49). -/
def Node256.is_min_size (n : Node256) : Bool := n.children_count == 49

/-- basic_inode_256::add: store a LEAF-tagged pointer at the key byte and
increment children_count (precondition in the source: the entry is null). -/
def Node256.add (self : NodePtr) (n : Node256) (leafAddr : Nat) (b : Nat) :
    Node256 × Iter :=
  ({ n with
     children := upd n.children b (NodePtr.node leafAddr .LEAF),
     children_count := inc8 n.children_count },
   ⟨NodePtr.node leafAddr .LEAF, b, self⟩)

/-- basic_inode_256::remove: null the entry at the key byte and decrement
children_count (precondition in the source: the entry is non-null). -/
def Node256.remove (n : Node256) (b : Nat) : Node256 :=
  { n with
    children := upd n.children b NodePtr.null,
    children_count := dec8 n.children_count }

/-- basic_inode_256::find_child: the entry at the key byte, or empty when it
is null. -/
def Node256.find_child (self : NodePtr) (n : Node256) (b : Nat) : Option Iter :=
  if n.children b ≠ NodePtr.null then some ⟨n.children b, b, self⟩ else none

/-- basic_inode_256::leftmost_child: scan forward from start for the first
non-null entry. -/
def Node256.leftmost_child (self : NodePtr) (n : Node256) (start : Nat) : Option Iter :=
  let bb := scanFrom (fun a => !(n.children a == NodePtr.null)) start (256 - start)
  if bb < 256 then some ⟨n.children bb, bb, self⟩ else none

/-- basic_inode_256::replace: overwrite the entry at the key byte
pos.index() and reparent the new child with the key byte as its index. -/
def Node256.replace (self : NodePtr) (n : Node256) (h : Heap) (pos : Iter) (child : NodePtr) :
    Node256 × Heap :=
  ({ n with children := upd n.children pos.index child }, reparent self h child pos.index)

/-- Grow populate basic_inode_256::populate(source: full basic_inode_48,
leaf, key_byte): copy each present source child to the entry of its key
byte, reparenting it with the byte; null every absent entry; store the new
leaf at its key byte; children_count stays at the seeded min size 49. -/
def Node256.populate (self : NodePtr) (src : Node48) (h : Heap) (leafAddr : Nat) (b : Nat) :
    Node256 × Heap × Iter :=
  let children' : Nat → NodePtr := fun a =>
    if a = b then NodePtr.node leafAddr .LEAF
    else if src.child_indices a ≠ 255 then src.children (src.child_indices a)
    else NodePtr.null
  let h' := (List.range 256).foldl
    (fun hh a =>
      if src.child_indices a = 255 then hh
      else reparent self hh (src.children (src.child_indices a)) a) h
  ({ children := children', children_count := 49, pfx := src.pfx, parent := NodePtr.null },
   h', ⟨NodePtr.node leafAddr .LEAF, b, self⟩)

/-! ### Dispatch on the tag (basic_inode_impl statics) -/

/-- Contents of an internal node reachable through a pointer, for the
type-dispatched static operations of basic_inode_impl. -/
inductive HeapNode where
  | i4 : Node4 → HeapNode
  | i16 : Node16 → HeapNode
  | i48 : Node48 → HeapNode
  | i256 : Node256 → HeapNode

/-- basic_inode_impl::find_child: switch on the tag and forward to the
variant member function. -/
def findChildOf (self : NodePtr) : HeapNode → Nat → Option Iter
  | .i4 n, b => Node4.find_child self n b
  | .i16 n, b => Node16.find_child self n b
  | .i48 n, b => Node48.find_child self n b
  | .i256 n, b => Node256.find_child self n b

/-- basic_inode_impl::leftmost_child: switch on the tag and forward to the
variant member function. -/
def leftmostChildOf (self : NodePtr) : HeapNode → Nat → Option Iter
  | .i4 n, s => Node4.leftmost_child self n s
  | .i16 n, s => Node16.leftmost_child self n s
  | .i48 n, s => Node48.leftmost_child self n s
  | .i256 n, s => Node256.leftmost_child self n s

/-- Key byte b is among the present key bytes of a node: an index below
children_count holding b for the sorted variants, a non-empty table entry
for basic_inode_48, a non-null entry for basic_inode_256. -/
def presentByte : HeapNode → Nat → Prop
  | .i4 n, b => ∃ i, i < n.children_count ∧ n.keys i = b
  | .i16 n, b => ∃ i, i < n.children_count ∧ n.keys i = b
  | .i48 n, b => n.child_indices b ≠ 255
  | .i256 n, b => n.children b ≠ NodePtr.null

/-- The pointer c is the child a node associates with key byte b. -/
def assocChild : HeapNode → Nat → NodePtr → Prop
  | .i4 n, b, c => ∃ i, i < n.children_count ∧ n.keys i = b ∧ c = n.children i
  | .i16 n, b, c => ∃ i, i < n.children_count ∧ n.keys i = b ∧ c = n.children i
  | .i48 n, b, c => c = n.children (n.child_indices b)
  | .i256 n, b, c => c = n.children b

/-- basic_inode_impl::leftmost_leaf: starting from const_iterator(node, 0),
repeatedly take the leftmost child — with the given start on the first hop
and start 0 afterwards — until a LEAF tag is observed.  The dispatch
reads the node contents from a map of addresses to internal nodes; fuel
bounds the loop, and exhausted fuel or an empty leftmost_child result is
none (the source loop would not terminate / has undefined behaviour there). -/
def leftmostLeafLoop (mem : Nat → HeapNode) : Nat → Iter → Nat → Option Iter
  | 0, _, _ => none
  | f + 1, pos, start =>
    if pos.node.isLeafTagged then some pos
    else
      match leftmostChildOf pos.node (mem pos.node.addr) start with
      | none => none
      | some it => leftmostLeafLoop mem f it 0

/-! ### Claim post-conditions -/

/-- Post-condition of claim C1 at a single node and byte: find_child is
non-empty exactly on the present key bytes, and a non-empty result carries
the associated child and the node's tagged self as parent. -/
def C1Post (self : NodePtr) (hn : HeapNode) (b : Nat) : Prop :=
  ((findChildOf self hn b).isSome ↔ presentByte hn b) ∧
  (∀ it, findChildOf self hn b = some it → it.parent = self ∧ assocChild hn b it.node)

/-- Post-condition of claim C10 for Node4::replace: exactly the child entry
at the iterator's index changes, the new child is reparented when non-leaf,
and everything else is unchanged. -/
def C10Post4 (self : NodePtr) (n : Node4) (h : Heap) (pos : Iter) (child : NodePtr) : Prop :=
  (Node4.replace self n h pos child).1.children pos.index = child ∧
  (∀ j, j ≠ pos.index →
    (Node4.replace self n h pos child).1.children j = n.children j) ∧
  (Node4.replace self n h pos child).1.keys = n.keys ∧
  (Node4.replace self n h pos child).1.children_count = n.children_count ∧
  (Node4.replace self n h pos child).1.pfx = n.pfx ∧
  (Node4.replace self n h pos child).1.parent = n.parent ∧
  (child.isLeafTagged = true → (Node4.replace self n h pos child).2 = h) ∧
  (child.isLeafTagged = false →
    (Node4.replace self n h pos child).2 child.addr =
      { h child.addr with parent := self, pos := pos.index } ∧
    ∀ a, a ≠ child.addr → (Node4.replace self n h pos child).2 a = h a)

/-- Post-condition of claim C10 for Node16::replace. -/
def C10Post16 (self : NodePtr) (n : Node16) (h : Heap) (pos : Iter) (child : NodePtr) : Prop :=
  (Node16.replace self n h pos child).1.children pos.index = child ∧
  (∀ j, j ≠ pos.index →
    (Node16.replace self n h pos child).1.children j = n.children j) ∧
  (Node16.replace self n h pos child).1.keys = n.keys ∧
  (Node16.replace self n h pos child).1.children_count = n.children_count ∧
  (Node16.replace self n h pos child).1.pfx = n.pfx ∧
  (Node16.replace self n h pos child).1.parent = n.parent ∧
  (child.isLeafTagged = true → (Node16.replace self n h pos child).2 = h) ∧
  (child.isLeafTagged = false →
    (Node16.replace self n h pos child).2 child.addr =
      { h child.addr with parent := self, pos := pos.index } ∧
    ∀ a, a ≠ child.addr → (Node16.replace self n h pos child).2 a = h a)

/-- Post-condition of claim C10 for Node48::replace: only the slot mapped by
the key byte pos.index changes; the table, count, prefix and parent are
unchanged; the new child is reparented with the key byte. -/
def C10Post48 (self : NodePtr) (n : Node48) (h : Heap) (pos : Iter) (child : NodePtr) : Prop :=
  (Node48.replace self n h pos child).1.children (n.child_indices pos.index) = child ∧
  (∀ j, j ≠ n.child_indices pos.index →
    (Node48.replace self n h pos child).1.children j = n.children j) ∧
  (Node48.replace self n h pos child).1.child_indices = n.child_indices ∧
  (Node48.replace self n h pos child).1.children_count = n.children_count ∧
  (Node48.replace self n h pos child).1.pfx = n.pfx ∧
  (Node48.replace self n h pos child).1.parent = n.parent ∧
  (child.isLeafTagged = true → (Node48.replace self n h pos child).2 = h) ∧
  (child.isLeafTagged = false →
    (Node48.replace self n h pos child).2 child.addr =
      { h child.addr with parent := self, pos := pos.index } ∧
    ∀ a, a ≠ child.addr → (Node48.replace self n h pos child).2 a = h a)

/-- Post-condition of claim C10 for Node256::replace: only the entry at the
key byte pos.index changes. -/
def C10Post256 (self : NodePtr) (n : Node256) (h : Heap) (pos : Iter) (child : NodePtr) :
    Prop :=
  (Node256.replace self n h pos child).1.children pos.index = child ∧
  (∀ j, j ≠ pos.index →
    (Node256.replace self n h pos child).1.children j = n.children j) ∧
  (Node256.replace self n h pos child).1.children_count = n.children_count ∧
  (Node256.replace self n h pos child).1.pfx = n.pfx ∧
  (Node256.replace self n h pos child).1.parent = n.parent ∧
  (child.isLeafTagged = true → (Node256.replace self n h pos child).2 = h) ∧
  (child.isLeafTagged = false →
    (Node256.replace self n h pos child).2 child.addr =
      { h child.addr with parent := self, pos := pos.index } ∧
    ∀ a, a ≠ child.addr → (Node256.replace self n h pos child).2 a = h a)

/-- Post-condition of claim C2 at a Node48: the free-slot scan lands on the
lowest-index null slot s, add stores the leaf there, maps the key byte to s,
increments children_count and returns an iterator indexed by the key byte. -/
def C2Post (self : NodePtr) (n : Node48) (la b : Nat) : Prop :=
  n.first_free_slot < 48 ∧
  n.children n.first_free_slot = NodePtr.null ∧
  (∀ j, j < n.first_free_slot → n.children j ≠ NodePtr.null) ∧
  ∃ r, Node48.add self n la b = some r ∧
    r.1.children n.first_free_slot = NodePtr.node la .LEAF ∧
    r.1.child_indices b = n.first_free_slot ∧
    r.1.children_count = n.children_count + 1 ∧
    r.2.index = b ∧ r.2.node = NodePtr.node la .LEAF ∧ r.2.parent = self

/-- Post-condition of claim C6 for Node4: add(leaf, b) followed by remove at
the returned iterator's index restores the populated keys and children and
children_count. -/
def C6Post4 (self : NodePtr) (n : Node4) (h : Heap) (la b : Nat) : Prop :=
  let r1 := Node4.add self n h la b
  let r2 := Node4.remove self r1.1 r1.2.1 r1.2.2.index
  (∀ i, i < n.children_count → r2.1.keys i = n.keys i ∧ r2.1.children i = n.children i) ∧
  r2.1.children_count = n.children_count

/-- Post-condition of claim C6 for Node16. -/
def C6Post16 (self : NodePtr) (n : Node16) (h : Heap) (la b : Nat) : Prop :=
  let r1 := Node16.add self n h la b
  let r2 := Node16.remove self r1.1 r1.2.1 r1.2.2.index
  (∀ i, i < n.children_count → r2.1.keys i = n.keys i ∧ r2.1.children i = n.children i) ∧
  r2.1.children_count = n.children_count

/-- Post-condition of claim C6 for Node48: add succeeds and remove at the
returned iterator's index (the key byte) restores the table, the slot array
and children_count. -/
def C6Post48 (self : NodePtr) (n : Node48) (la b : Nat) : Prop :=
  ∃ r, Node48.add self n la b = some r ∧
    (∀ a, (Node48.remove r.1 r.2.index).child_indices a = n.child_indices a) ∧
    (∀ j, (Node48.remove r.1 r.2.index).children j = n.children j) ∧
    (Node48.remove r.1 r.2.index).children_count = n.children_count

/-- Post-condition of claim C6 for Node256. -/
def C6Post256 (self : NodePtr) (n : Node256) (la b : Nat) : Prop :=
  (∀ a, (Node256.remove (Node256.add self n la b).1
      (Node256.add self n la b).2.index).children a = n.children a) ∧
  (Node256.remove (Node256.add self n la b).1
      (Node256.add self n la b).2.index).children_count = n.children_count

/-- Post-condition of claim C3 at a Node4: add(leaf, b) inserts at the
position equal to the number of existing keys below b, keeps the earlier
entries, stores the byte and a LEAF-tagged pointer at the position, shifts
the later entries right by one, increments children_count, returns the
iterator of the new leaf, keeps the populated keys strictly sorted, and
reparents every shifted non-leaf child with its new index. -/
def C3Post (self : NodePtr) (n : Node4) (h : Heap) (la b : Nat) : Prop :=
  let p := n.insert_pos b
  let r := Node4.add self n h la b
  p = ((List.range n.children_count).filter (fun i => decide (n.keys i < b))).length ∧
  (∀ i, i < p → r.1.keys i = n.keys i ∧ r.1.children i = n.children i) ∧
  r.1.keys p = b ∧
  r.1.children p = NodePtr.node la .LEAF ∧
  (∀ i, p < i → i ≤ n.children_count →
    r.1.keys i = n.keys (i - 1) ∧ r.1.children i = n.children (i - 1)) ∧
  r.1.children_count = n.children_count + 1 ∧
  r.2.2 = ⟨NodePtr.node la .LEAF, p, self⟩ ∧
  (∀ j, j < n.children_count + 1 → ∀ i, i < j → r.1.keys i < r.1.keys j) ∧
  (∀ i, p < i → i ≤ n.children_count → (n.children (i - 1)).isLeafTagged = false →
    (r.2.1 (n.children (i - 1)).addr).parent = self ∧
    (r.2.1 (n.children (i - 1)).addr).pos = i)

/-- Well-formedness of a finite tree laid out in a memory of internal nodes,
witnessed by a rank function: every internal node has a child at start 0,
and every non-leaf child returned by leftmost_child has strictly smaller
rank than its parent (so the pointer graph restricted to non-leaf edges is
finite and acyclic). -/
def wfRank (mem : Nat → HeapNode) (rank : Nat → Nat) : Prop :=
  ∀ a : Nat, ∀ self : NodePtr,
    (leftmostChildOf self (mem a) 0).isSome = true ∧
    (∀ start it, leftmostChildOf self (mem a) start = some it →
      it.node.isLeafTagged = false → rank it.node.addr < rank a)

/-! ### Concrete instances used by scenario, counterexample and witness statements -/

/-- All-empty header heap. -/
def h0 : Heap := fun _ => ⟨[], NodePtr.null, 0⟩

/-- Tagged self pointer of a Node4 under test. -/
def self4 : NodePtr := NodePtr.node 1 .I4

/-- Tagged self pointer of a Node16 under test. -/
def self16 : NodePtr := NodePtr.node 1 .I16

/-- Tagged self pointer of a Node48 under test. -/
def self48 : NodePtr := NodePtr.node 1 .I48

/-- Tagged self pointer of a Node256 under test. -/
def self256 : NodePtr := NodePtr.node 1 .I256

/-- A Node48 with a single child: key byte 3 at slot 0. -/
def w48 : Node48 :=
  { child_indices := fun b => if b = 3 then 0 else 255,
    children := fun j => if j = 0 then NodePtr.node 9 .LEAF else NodePtr.null,
    children_count := 1, pfx := [], parent := NodePtr.null }

/-- A full Node48: key bytes 0..6 at slots 0..6, key byte 0x55 at slot 7,
key bytes 8..47 at slots 8..47, every slot holding a leaf. -/
def full48 : Node48 :=
  { child_indices := fun b =>
      if b < 7 then b else if b = 85 then 7 else if 8 ≤ b ∧ b < 48 then b else 255,
    children := fun j => if j < 48 then NodePtr.node (j + 1) .LEAF else NodePtr.null,
    children_count := 48, pfx := [], parent := NodePtr.null }

/-- An empty seeded Node4 as produced by the basic_inode(bitwise_key)
constructor: children_count = min size 2, arrays unobserved. -/
def empty4 : Node4 :=
  { keys := fun _ => 0, children := fun _ => NodePtr.null, children_count := 2,
    pfx := [], parent := NodePtr.null }

/-- Scenario S1, first step: seed the empty Node4 with leaves at key bytes
0x20 and 0x10 (populate delegating to add_two_to_empty). -/
def s1seed : Node4 × Heap × Iter :=
  Node4.add_two_to_empty self4 empty4 h0 0x20 (NodePtr.node 100 .LEAF) 0x10 101

/-- Scenario S1, second step: add a leaf at key byte 0x30. -/
def s1third : Node4 × Heap × Iter := Node4.add self4 s1seed.1 s1seed.2.1 200 0x30

/-- Scenario S1, final step: add a leaf at key byte 0x05. -/
def s1final : Node4 × Heap × Iter := Node4.add self4 s1third.1 s1third.2.1 300 0x05

/-- A Node4 with two leaf children at key bytes 10 and 20. -/
def w4 : Node4 :=
  { keys := fun i => if i = 0 then 10 else if i = 1 then 20 else 0,
    children := fun i => NodePtr.node (50 + i) .LEAF, children_count := 2,
    pfx := [], parent := NodePtr.null }

/-- A Node16 with five leaf children at key bytes 10, 20, 30, 40, 50. -/
def w16 : Node16 :=
  { keys := fun i =>
      if i = 0 then 10 else if i = 1 then 20 else if i = 2 then 30
      else if i = 3 then 40 else if i = 4 then 50 else 0,
    children := fun i => NodePtr.node (70 + i) .LEAF, children_count := 5,
    pfx := [], parent := NodePtr.null }

/-- A minimum-size Node4 whose surviving child at key byte 0x10 is a
non-leaf and whose other child at key byte 0x20 is a leaf (scenario S5). -/
def w4collapse : Node4 :=
  { keys := fun i => if i = 0 then 16 else 32,
    children := fun i => if i = 0 then NodePtr.node 5 .I4 else NodePtr.node 6 .LEAF,
    children_count := 2, pfx := [170, 187], parent := NodePtr.null }

/-- Heap giving the surviving non-leaf of w4collapse the old prefix [204]. -/
def hC5 : Heap := fun _ => ⟨[204], NodePtr.null, 3⟩

/-- A Node256 with exactly one child. -/
def one256 : Node256 :=
  { children := fun b => if b = 0 then NodePtr.node 9 .LEAF else NodePtr.null,
    children_count := 1, pfx := [], parent := NodePtr.null }

/-- A Node256 with 255 children (key bytes 0..254). -/
def big256 : Node256 :=
  { children := fun b => if b < 255 then NodePtr.node (b + 1) .LEAF else NodePtr.null,
    children_count := 255, pfx := [], parent := NodePtr.null }

/-- A Node256 with two children. -/
def two256 : Node256 :=
  { children := fun b => if b < 2 then NodePtr.node (b + 1) .LEAF else NodePtr.null,
    children_count := 2, pfx := [], parent := NodePtr.null }

/-- A full Node4 (children_count 4). -/
def w4full : Node4 := { w4 with children_count := 4 }

/-- A full Node16 (children_count 16). -/
def w16full : Node16 := { w16 with children_count := 16 }

/-- A minimum-size Node48 (children_count 17). -/
def w48min : Node48 := { full48 with children_count := 17 }

/-- A minimum-size Node256 (children_count 49). -/
def w256min : Node256 := { big256 with children_count := 49 }

/-- Present key bytes of a basic_inode_256: the bytes below 256 whose entry
is non-null. -/
def present256 (n : Node256) : Finset Nat :=
  (Finset.range 256).filter (fun b => n.children b ≠ NodePtr.null)

/-- Presence invariant of claim C7: the number of non-null entries equals
num_children (children_count with 0 encoding 256), with the stored count a
byte. -/
def Inv256 (n : Node256) : Prop :=
  n.children_count < 256 ∧ (present256 n).card = num_children n.children_count

instance (n : Node256) : Decidable (Inv256 n) :=
  inferInstanceAs
    (Decidable (n.children_count < 256 ∧ (present256 n).card = num_children n.children_count))

/-- A memory in which every address holds a Node4 whose single child is a
leaf; used to exercise leftmost_leaf. -/
def wMem : Nat → HeapNode := fun _ =>
  .i4 { keys := fun _ => 0, children := fun _ => NodePtr.node 3 .LEAF,
        children_count := 1, pfx := [], parent := NodePtr.null }

/-! ### Helper lemmas -/

theorem upd_at {α : Type} (f : Nat → α) (a : Nat) (v : α) : upd f a v a = v := by
  simp [upd]

theorem upd_elsewhere {α : Type} (f : Nat → α) (a x : Nat) (v : α) (h : x ≠ a) :
    upd f a v x = f x := by
  simp [upd, h]

theorem scanFrom_ge (p : Nat → Bool) (s f : Nat) : s ≤ scanFrom p s f := by
  induction f generalizing s with
  | zero => simp [scanFrom]
  | succ f ih =>
    simp only [scanFrom]
    split
    · exact le_rfl
    · exact le_trans (Nat.le_succ s) (ih (s + 1))

theorem scanFrom_le (p : Nat → Bool) (s f : Nat) : scanFrom p s f ≤ s + f := by
  induction f generalizing s with
  | zero => simp [scanFrom]
  | succ f ih =>
    simp only [scanFrom]
    split
    · omega
    · have := ih (s + 1)
      omega

theorem scanFrom_pred (p : Nat → Bool) (s f : Nat) (h : scanFrom p s f < s + f) :
    p (scanFrom p s f) = true := by
  induction f generalizing s with
  | zero =>
    simp only [scanFrom] at h
    omega
  | succ f ih =>
    by_cases hp : p s = true
    · simp only [scanFrom, if_pos hp]
      exact hp
    · simp only [scanFrom, if_neg hp] at h ⊢
      exact ih (s + 1) (by omega)

theorem scanFrom_before (p : Nat → Bool) (s f : Nat) :
    ∀ j, s ≤ j → j < scanFrom p s f → p j = false := by
  induction f generalizing s with
  | zero =>
    intro j h1 h2
    simp only [scanFrom] at h2
    omega
  | succ f ih =>
    intro j h1 h2
    by_cases hp : p s = true
    · simp only [scanFrom, if_pos hp] at h2
      omega
    · simp only [scanFrom, if_neg hp] at h2
      rcases Nat.eq_or_lt_of_le h1 with rfl | hlt
      · cases hps : p s
        · rfl
        · exact absurd hps hp
      · exact ih (s + 1) j hlt h2

theorem scanFrom_found (p : Nat → Bool) (s f j : Nat) (h1 : s ≤ j) (h2 : j < s + f)
    (hp : p j = true) : scanFrom p s f < s + f := by
  by_contra hc
  push_neg at hc
  have := scanFrom_before p s f j h1 (lt_of_lt_of_le h2 hc)
  simp [hp] at this

theorem inc8_small (c : Nat) (h : c < 255) : inc8 c = c + 1 := by
  unfold inc8
  omega

theorem dec8_inc8 (c : Nat) (h : c < 256) : dec8 (inc8 c) = c := by
  unfold inc8 dec8
  omega

theorem reparent_pfx (self : NodePtr) (h : Heap) (c : NodePtr) (i a : Nat) :
    ((reparent self h c i) a).pfx = (h a).pfx := by
  unfold reparent assignParent
  split
  · rfl
  · by_cases ha : a = c.addr <;> simp [ha]

theorem foldl_reparent_absent (self : NodePtr) (ch : Nat → NodePtr) (L : List Nat) (h : Heap)
    (a : Nat) (hL : ∀ k ∈ L, (ch (k - 1)).isLeafTagged = false → (ch (k - 1)).addr ≠ a) :
    (L.foldl (fun hh k => reparent self hh (ch (k - 1)) k) h) a = h a := by
  induction L generalizing h with
  | nil => rfl
  | cons hd tl ih =>
    simp only [List.foldl_cons]
    rw [ih _ (fun k hk => hL k (List.mem_cons_of_mem _ hk))]
    by_cases hl : (ch (hd - 1)).isLeafTagged = true
    · simp [reparent, hl]
    · have hne := hL hd (List.mem_cons_self _ _) (by simpa using hl)
      simp [reparent, assignParent, hl, Ne.symm hne]

theorem foldl_reparent_mem (self : NodePtr) (ch : Nat → NodePtr) (L : List Nat) (h : Heap)
    (i : Nat) (hmem : i ∈ L) (hcl : (ch (i - 1)).isLeafTagged = false)
    (huniq : ∀ k, k ∈ L → (ch (k - 1)).isLeafTagged = false →
      (ch (k - 1)).addr = (ch (i - 1)).addr → ch (k - 1) = ch (i - 1) ∧ k = i) :
    (L.foldl (fun hh k => reparent self hh (ch (k - 1)) k) h) (ch (i - 1)).addr =
      { h (ch (i - 1)).addr with parent := self, pos := i } := by
  induction L generalizing h with
  | nil => cases hmem
  | cons hd tl ih =>
    simp only [List.foldl_cons]
    by_cases hmem' : i ∈ tl
    · rw [ih _ hmem' (fun k hk h1 h2 => huniq k (List.mem_cons_of_mem _ hk) h1 h2)]
      have hpfx : ((reparent self h (ch (hd - 1)) hd) (ch (i - 1)).addr).pfx
          = (h (ch (i - 1)).addr).pfx :=
        reparent_pfx self h (ch (hd - 1)) hd (ch (i - 1)).addr
      cases hh1 : (reparent self h (ch (hd - 1)) hd) (ch (i - 1)).addr
      cases hh2 : h (ch (i - 1)).addr
      simp only [hh1, hh2] at hpfx ⊢
      simp [hpfx]
    · have hd_eq : hd = i := by
        rcases List.mem_cons.mp hmem with h' | h'
        · exact h'.symm
        · exact absurd h' hmem'
      subst hd_eq
      rw [foldl_reparent_absent self ch tl _ (ch (hd - 1)).addr]
      · unfold reparent assignParent
        simp [hcl]
      · intro k hk hkl hka
        exact absurd (huniq k (List.mem_cons_of_mem _ hk) hkl hka).2 (by
          intro hki
          exact hmem' (hki ▸ hk))

/-! ### Claim C1 -/

/-- C1: for every internal node variant (Node4, Node16, Node48, Node256) and
every byte b in [0,255], find_child(b) returns a non-empty iterator iff b is
among the node's present key bytes; when non-empty, the iterator designates
the child associated with b, with the node itself as the tagged parent. -/
theorem c1_find_child_totality (self : NodePtr) (hn : HeapNode) (b : Nat) (hb : b < 256) :
    C1Post self hn b := by
  unfold C1Post
  cases hn with
  | i4 n =>
    constructor
    · constructor
      · intro hs
        simp only [findChildOf, Node4.find_child] at hs
        by_cases hlt : scanFrom (fun i => n.keys i == b) 0 n.children_count < n.children_count
        · have hp := scanFrom_pred (fun i => n.keys i == b) 0 n.children_count (by omega)
          exact ⟨_, hlt, by simpa using hp⟩
        · rw [if_neg hlt] at hs
          simp at hs
      · rintro ⟨i, hi, hk⟩
        simp only [findChildOf, Node4.find_child]
        have hlt : scanFrom (fun i => n.keys i == b) 0 n.children_count < n.children_count := by
          have := scanFrom_found (fun i => n.keys i == b) 0 n.children_count i (Nat.zero_le i)
            (by omega) (by simpa using hk)
          omega
        rw [if_pos hlt]
        rfl
    · intro it hit
      simp only [findChildOf, Node4.find_child] at hit
      by_cases hlt : scanFrom (fun i => n.keys i == b) 0 n.children_count < n.children_count
      · rw [if_pos hlt] at hit
        have hp := scanFrom_pred (fun i => n.keys i == b) 0 n.children_count (by omega)
        injection hit with h'
        subst h'
        exact ⟨rfl, ⟨_, hlt, by simpa using hp, rfl⟩⟩
      · rw [if_neg hlt] at hit
        cases hit
  | i16 n =>
    constructor
    · constructor
      · intro hs
        simp only [findChildOf, Node16.find_child] at hs
        by_cases hlt : scanFrom (fun i => n.keys i == b) 0 n.children_count < n.children_count
        · have hp := scanFrom_pred (fun i => n.keys i == b) 0 n.children_count (by omega)
          exact ⟨_, hlt, by simpa using hp⟩
        · rw [if_neg hlt] at hs
          simp at hs
      · rintro ⟨i, hi, hk⟩
        simp only [findChildOf, Node16.find_child]
        have hlt : scanFrom (fun i => n.keys i == b) 0 n.children_count < n.children_count := by
          have := scanFrom_found (fun i => n.keys i == b) 0 n.children_count i (Nat.zero_le i)
            (by omega) (by simpa using hk)
          omega
        rw [if_pos hlt]
        rfl
    · intro it hit
      simp only [findChildOf, Node16.find_child] at hit
      by_cases hlt : scanFrom (fun i => n.keys i == b) 0 n.children_count < n.children_count
      · rw [if_pos hlt] at hit
        have hp := scanFrom_pred (fun i => n.keys i == b) 0 n.children_count (by omega)
        injection hit with h'
        subst h'
        exact ⟨rfl, ⟨_, hlt, by simpa using hp, rfl⟩⟩
      · rw [if_neg hlt] at hit
        cases hit
  | i48 n =>
    constructor
    · constructor
      · intro hs
        simp only [findChildOf, Node48.find_child] at hs
        by_cases hne : n.child_indices b ≠ 255
        · exact hne
        · rw [if_neg hne] at hs
          simp at hs
      · intro hne
        have hne' : n.child_indices b ≠ 255 := hne
        simp only [findChildOf, Node48.find_child]
        rw [if_pos hne']
        rfl
    · intro it hit
      simp only [findChildOf, Node48.find_child] at hit
      by_cases hne : n.child_indices b ≠ 255
      · rw [if_pos hne] at hit
        injection hit with h'
        subst h'
        exact ⟨rfl, rfl⟩
      · rw [if_neg hne] at hit
        cases hit
  | i256 n =>
    constructor
    · constructor
      · intro hs
        simp only [findChildOf, Node256.find_child] at hs
        by_cases hne : n.children b ≠ NodePtr.null
        · exact hne
        · rw [if_neg hne] at hs
          simp at hs
      · intro hne
        have hne' : n.children b ≠ NodePtr.null := hne
        simp only [findChildOf, Node256.find_child]
        rw [if_pos hne']
        rfl
    · intro it hit
      simp only [findChildOf, Node256.find_child] at hit
      by_cases hne : n.children b ≠ NodePtr.null
      · rw [if_pos hne] at hit
        injection hit with h'
        subst h'
        exact ⟨rfl, rfl⟩
      · rw [if_neg hne] at hit
        cases hit

/-- Witness for C1: the byte bound holds and C1Post is established at a
concrete Node48 and byte 3. -/
theorem c1_find_child_totality_witness :
    3 < 256 ∧ C1Post self48 (.i48 w48) 3 :=
  ⟨by decide, c1_find_child_totality self48 (.i48 w48) 3 (by decide)⟩

/-! ### Claim C4 -/

/-- C4: for a Node16 below capacity whose populated keys are strictly
sorted, duplicate-free and do not contain b,
get_sorted_key_array_insert_position(b) returns children_count (append) or
an index whose key is strictly greater than b, and every key at an earlier
index is strictly less than b. -/
theorem c4_sorted_insert_position (n : Node16) (b : Nat)
    (hc : n.children_count < 16)
    (hsort : ∀ j, j < n.children_count → ∀ i, i < j → n.keys i < n.keys j)
    (habs : ∀ i, i < n.children_count → n.keys i ≠ b) :
    (n.get_sorted_key_array_insert_position b = n.children_count ∨
      (n.get_sorted_key_array_insert_position b < n.children_count ∧
        b < n.keys (n.get_sorted_key_array_insert_position b))) ∧
    ∀ j, j < n.get_sorted_key_array_insert_position b → n.keys j < b := by
  have hdef : n.get_sorted_key_array_insert_position b
      = scanFrom (fun i => decide (b ≤ n.keys i)) 0 n.children_count := rfl
  have hle := scanFrom_le (fun i => decide (b ≤ n.keys i)) 0 n.children_count
  constructor
  · rcases Nat.lt_or_ge (n.get_sorted_key_array_insert_position b) n.children_count with
      hlt | hge
    · right
      refine ⟨hlt, ?_⟩
      have hp := scanFrom_pred (fun i => decide (b ≤ n.keys i)) 0 n.children_count
        (by rw [hdef] at hlt; omega)
      rw [hdef] at hlt ⊢
      have hble : b ≤ n.keys (scanFrom (fun i => decide (b ≤ n.keys i)) 0 n.children_count) := by
        simpa using hp
      have hne := habs _ hlt
      omega
    · left
      rw [hdef] at hge ⊢
      omega
  · intro j hj
    rw [hdef] at hj
    have hf := scanFrom_before (fun i => decide (b ≤ n.keys i)) 0 n.children_count j
      (Nat.zero_le j) hj
    have hgt : ¬ b ≤ n.keys j := by simpa using hf
    omega

/-- Witness for C4: the hypotheses hold at a concrete Node16 and byte 25,
and the characterization follows. -/
theorem c4_sorted_insert_position_witness :
    (w16.children_count < 16 ∧
      (∀ j, j < w16.children_count → ∀ i, i < j → w16.keys i < w16.keys j) ∧
      (∀ i, i < w16.children_count → w16.keys i ≠ 25)) ∧
    ((w16.get_sorted_key_array_insert_position 25 = w16.children_count ∨
      (w16.get_sorted_key_array_insert_position 25 < w16.children_count ∧
        25 < w16.keys (w16.get_sorted_key_array_insert_position 25))) ∧
    ∀ j, j < w16.get_sorted_key_array_insert_position 25 → w16.keys j < 25) :=
  ⟨⟨by decide, by decide, by decide⟩,
   c4_sorted_insert_position w16 25 (by decide) (by decide) (by decide)⟩

/-! ### Claim C5 -/

/-- C5: for a minimum-size Node4 and to_delete at most 1, leave_last_child
returns children[1 - to_delete]; a non-leaf survivor gets the collapsing
node's prefix, then the separator byte keys[1 - to_delete], prepended to its
own prefix and its parent back-reference nulled; a leaf survivor is
returned with the heap unchanged. -/
theorem c5_leave_last_child (n : Node4) (h : Heap) (d : Nat)
    (hmin : n.children_count = 2) (hd : d ≤ 1) :
    (Node4.leave_last_child n h d).1 = n.children (1 - d) ∧
    ((n.children (1 - d)).isLeafTagged = true → (Node4.leave_last_child n h d).2 = h) ∧
    ((n.children (1 - d)).isLeafTagged = false →
      (Node4.leave_last_child n h d).2 (n.children (1 - d)).addr =
        ⟨n.pfx ++ n.keys (1 - d) :: (h (n.children (1 - d)).addr).pfx, NodePtr.null, 0⟩) := by
  simp only [Node4.leave_last_child]
  by_cases hl : (n.children (1 - d)).isLeafTagged = true
  · rw [if_pos hl]
    exact ⟨rfl, fun _ => rfl, fun hfalse => absurd hl (by simp [hfalse])⟩
  · rw [if_neg hl]
    refine ⟨rfl, fun htrue => absurd htrue hl, fun _ => ?_⟩
    simp [shiftLeftByte, shiftLeftKey, assignParent]

/-- Witness for C5: scenario S5 — a Node4 with a non-leaf at keys[0] = 0x10
and a leaf at keys[1] = 0x20; leave_last_child(1) returns the non-leaf,
whose prefix becomes parent prefix ++ separator ++ old prefix and whose
parent becomes null. -/
theorem c5_leave_last_child_witness :
    (w4collapse.children_count = 2 ∧ 1 ≤ 1) ∧
    ((Node4.leave_last_child w4collapse hC5 1).1 = w4collapse.children (1 - 1) ∧
    ((w4collapse.children (1 - 1)).isLeafTagged = true →
      (Node4.leave_last_child w4collapse hC5 1).2 = hC5) ∧
    ((w4collapse.children (1 - 1)).isLeafTagged = false →
      (Node4.leave_last_child w4collapse hC5 1).2 (w4collapse.children (1 - 1)).addr =
        ⟨w4collapse.pfx ++
          w4collapse.keys (1 - 1) :: (hC5 (w4collapse.children (1 - 1)).addr).pfx,
         NodePtr.null, 0⟩)) :=
  ⟨⟨by decide, by decide⟩, c5_leave_last_child w4collapse hC5 1 (by decide) (by decide)⟩

/-! ### Claim C10 -/

/-- C10: for every node variant, replace(pos, child) under the precondition
that pos points at this node's child at its recorded index changes exactly
one child-pointer entry to child, updates the new child's parent
back-reference when it is a non-leaf, and leaves the key data,
children_count, prefix, parent and every other child pointer unchanged. -/
theorem c10_replace_frame :
    (∀ self n h pos child, pos.parent = self → pos.index < 4 →
      pos.node = n.children pos.index → C10Post4 self n h pos child) ∧
    (∀ self n h pos child, pos.parent = self → pos.index < 16 →
      pos.node = n.children pos.index → C10Post16 self n h pos child) ∧
    (∀ self n h pos child, pos.parent = self → pos.index < 256 →
      n.child_indices pos.index < 48 →
      pos.node = n.children (n.child_indices pos.index) → C10Post48 self n h pos child) ∧
    (∀ self n h pos child, pos.parent = self → pos.index < 256 →
      pos.node = n.children pos.index → C10Post256 self n h pos child) := by
  refine ⟨?_, ?_, ?_, ?_⟩
  · intro self n h pos child _ _ _
    refine ⟨upd_at _ _ _, fun j hj => upd_elsewhere _ _ _ _ hj, rfl, rfl, rfl, rfl,
      fun hl => by simp [Node4.replace, reparent, hl],
      fun hl => ⟨by simp [Node4.replace, reparent, assignParent, hl],
        fun a ha => by simp [Node4.replace, reparent, assignParent, hl, ha]⟩⟩
  · intro self n h pos child _ _ _
    refine ⟨upd_at _ _ _, fun j hj => upd_elsewhere _ _ _ _ hj, rfl, rfl, rfl, rfl,
      fun hl => by simp [Node16.replace, reparent, hl],
      fun hl => ⟨by simp [Node16.replace, reparent, assignParent, hl],
        fun a ha => by simp [Node16.replace, reparent, assignParent, hl, ha]⟩⟩
  · intro self n h pos child _ _ _ _
    refine ⟨upd_at _ _ _, fun j hj => upd_elsewhere _ _ _ _ hj, rfl, rfl, rfl, rfl,
      fun hl => by simp [Node48.replace, reparent, hl],
      fun hl => ⟨by simp [Node48.replace, reparent, assignParent, hl],
        fun a ha => by simp [Node48.replace, reparent, assignParent, hl, ha]⟩⟩
  · intro self n h pos child _ _ _
    refine ⟨upd_at _ _ _, fun j hj => upd_elsewhere _ _ _ _ hj, rfl, rfl, rfl,
      fun hl => by simp [Node256.replace, reparent, hl],
      fun hl => ⟨by simp [Node256.replace, reparent, assignParent, hl],
        fun a ha => by simp [Node256.replace, reparent, assignParent, hl, ha]⟩⟩

/-- Witness for C10: the precondition holds at one concrete node of each
variant and the frame post-condition follows, replacing with a non-leaf. -/
theorem c10_replace_frame_witness :
    C10Post4 self4 w4 h0 ⟨w4.children 0, 0, self4⟩ (NodePtr.node 99 .I16) ∧
    C10Post16 self16 w16 h0 ⟨w16.children 1, 1, self16⟩ (NodePtr.node 99 .I16) ∧
    C10Post48 self48 full48 h0 ⟨full48.children 3, 3, self48⟩ (NodePtr.node 99 .I16) ∧
    C10Post256 self256 two256 h0 ⟨two256.children 1, 1, self256⟩ (NodePtr.node 99 .I16) :=
  ⟨c10_replace_frame.1 self4 w4 h0 _ _ (by decide) (by decide) (by decide),
   c10_replace_frame.2.1 self16 w16 h0 _ _ (by decide) (by decide) (by decide),
   c10_replace_frame.2.2.1 self48 full48 h0 _ _ (by decide) (by decide) (by decide) (by decide),
   c10_replace_frame.2.2.2 self256 two256 h0 _ _ (by decide) (by decide) (by decide)⟩

/-! ### Claim C9 -/

/-- C9: every shrink constructor takes a minimum-size source and produces a
node whose children_count equals its own capacity (is_full holds), and every
grow populate takes a full source and produces a node whose children_count
equals its own min size (is_min_size holds). -/
theorem c9_transition_counts :
    (∀ self src h d, Node16.is_min_size src = true →
      (Node4.ofNode16 self src h d).1.children_count = 4 ∧
        (Node4.ofNode16 self src h d).1.is_full = true) ∧
    (∀ self src h d, Node48.is_min_size src = true →
      (Node16.ofNode48 self src h d).1.children_count = 16 ∧
        (Node16.ofNode48 self src h d).1.is_full = true) ∧
    (∀ self src h d, Node256.is_min_size src = true →
      (Node48.ofNode256 self src h d).1.children_count = 48 ∧
        (Node48.ofNode256 self src h d).1.is_full = true) ∧
    (∀ self src h la b, Node4.is_full src = true →
      (Node16.populate self src h la b).1.children_count = 5 ∧
        (Node16.populate self src h la b).1.is_min_size = true) ∧
    (∀ self src h la b, Node16.is_full src = true →
      (Node48.populate self src h la b).1.children_count = 17 ∧
        (Node48.populate self src h la b).1.is_min_size = true) ∧
    (∀ self src h la b, Node48.is_full src = true →
      (Node256.populate self src h la b).1.children_count = 49 ∧
        (Node256.populate self src h la b).1.is_min_size = true) :=
  ⟨fun _ _ _ _ _ => ⟨rfl, rfl⟩, fun _ _ _ _ _ => ⟨rfl, rfl⟩, fun _ _ _ _ _ => ⟨rfl, rfl⟩,
   fun _ _ _ _ _ _ => ⟨rfl, rfl⟩, fun _ _ _ _ _ _ => ⟨rfl, rfl⟩, fun _ _ _ _ _ _ => ⟨rfl, rfl⟩⟩

/-- Witness for C9: each transition instantiated at a source of the required
occupancy. -/
theorem c9_transition_counts_witness :
    (Node16.is_min_size w16 = true ∧
      (Node4.ofNode16 self4 w16 h0 0).1.children_count = 4 ∧
      (Node4.ofNode16 self4 w16 h0 0).1.is_full = true) ∧
    (Node48.is_min_size w48min = true ∧
      (Node16.ofNode48 self16 w48min h0 0).1.children_count = 16 ∧
      (Node16.ofNode48 self16 w48min h0 0).1.is_full = true) ∧
    (Node256.is_min_size w256min = true ∧
      (Node48.ofNode256 self48 w256min h0 0).1.children_count = 48 ∧
      (Node48.ofNode256 self48 w256min h0 0).1.is_full = true) ∧
    (Node4.is_full w4full = true ∧
      (Node16.populate self16 w4full h0 900 25).1.children_count = 5 ∧
      (Node16.populate self16 w4full h0 900 25).1.is_min_size = true) ∧
    (Node16.is_full w16full = true ∧
      (Node48.populate self48 w16full h0 900 25).1.children_count = 17 ∧
      (Node48.populate self48 w16full h0 900 25).1.is_min_size = true) ∧
    (Node48.is_full full48 = true ∧
      (Node256.populate self256 full48 h0 900 77).1.children_count = 49 ∧
      (Node256.populate self256 full48 h0 900 77).1.is_min_size = true) :=
  ⟨⟨by decide, c9_transition_counts.1 self4 w16 h0 0 (by decide)⟩,
   ⟨by decide, c9_transition_counts.2.1 self16 w48min h0 0 (by decide)⟩,
   ⟨by decide, c9_transition_counts.2.2.1 self48 w256min h0 0 (by decide)⟩,
   ⟨by decide, c9_transition_counts.2.2.2.1 self16 w4full h0 900 25 (by decide)⟩,
   ⟨by decide, c9_transition_counts.2.2.2.2.1 self48 w16full h0 900 25 (by decide)⟩,
   ⟨by decide, c9_transition_counts.2.2.2.2.2 self256 full48 h0 900 77 (by decide)⟩⟩

/-! ### Claim C7 -/

/-- Counterexample to C7 as stated: a Node256 holding exactly one child
satisfies the presence invariant and the stated remove precondition
(children[0] != null), yet after remove the one-byte counter wraps to the
0 sentinel, num_children reports 256, and the invariant fails. -/
theorem c7_counterexample :
    Inv256 one256 ∧ one256.children 0 ≠ NodePtr.null ∧
      ¬ Inv256 (Node256.remove one256 0) := by
  decide

/-- C7 (amended): the presence correspondence is preserved by Node256 add
under precondition children[b] == null — including at the 255-to-256
boundary where the counter wraps to the 0 sentinel — and by Node256 remove
under preconditions children[b] != null and children_count != 1 (at a
stored count of 1 the decrement would wrap the counter to the 0 sentinel,
which num_children reports as 256). -/
theorem c7_presence_invariant :
    (∀ self n la b, b < 256 → Inv256 n → n.children b = NodePtr.null →
      Inv256 (Node256.add self n la b).1) ∧
    (∀ (n : Node256) b, b < 256 → Inv256 n → n.children b ≠ NodePtr.null →
      n.children_count ≠ 1 → Inv256 (Node256.remove n b)) := by
  constructor
  · rintro self n la b hb ⟨hclt, hcard⟩ hnull
    have hnotmem : b ∉ present256 n := by
      simp [present256, Finset.mem_filter, hnull]
    have hS : present256 (Node256.add self n la b).1 = insert b (present256 n) := by
      ext a
      by_cases hab : a = b
      · subst hab
        simp [present256, Node256.add, Finset.mem_filter, Finset.mem_insert,
          Finset.mem_range, upd, hb]
      · simp [present256, Node256.add, Finset.mem_filter, Finset.mem_insert,
          Finset.mem_range, upd, hab]
    have hc0 : n.children_count ≠ 0 := by
      intro hzero
      rw [hzero] at hcard
      simp only [num_children] at hcard
      rw [if_neg (by omega)] at hcard
      have hsub : present256 n ⊆ Finset.range 256 := Finset.filter_subset _ _
      have heq : present256 n = Finset.range 256 :=
        Finset.eq_of_subset_of_card_le hsub (by rw [hcard, Finset.card_range])
      rw [heq] at hnotmem
      exact hnotmem (Finset.mem_range.mpr hb)
    constructor
    · show inc8 n.children_count < 256
      unfold inc8
      omega
    · show (present256 (Node256.add self n la b).1).card = num_children (inc8 n.children_count)
      rw [hS, Finset.card_insert_of_not_mem hnotmem]
      simp only [num_children, inc8] at hcard ⊢
      rw [if_pos hc0] at hcard
      split_ifs with h2
      · omega
      · omega
  · rintro n b hb ⟨hclt, hcard⟩ hnn hc1
    have hmem : b ∈ present256 n := by
      simp [present256, Finset.mem_filter, Finset.mem_range, hb, hnn]
    have hpos : 0 < (present256 n).card := Finset.card_pos.mpr ⟨b, hmem⟩
    have hS : present256 (Node256.remove n b) = (present256 n).erase b := by
      ext a
      by_cases hab : a = b
      · subst hab
        simp [present256, Node256.remove, Finset.mem_filter, Finset.mem_erase,
          Finset.mem_range, upd]
      · simp [present256, Node256.remove, Finset.mem_filter, Finset.mem_erase,
          Finset.mem_range, upd, hab]
    constructor
    · show dec8 n.children_count < 256
      unfold dec8
      omega
    · show (present256 (Node256.remove n b)).card = num_children (dec8 n.children_count)
      rw [hS, Finset.card_erase_of_mem hmem]
      simp only [num_children, dec8] at hcard ⊢
      split_ifs at hcard with hc0
      · split_ifs with h2
        · omega
        · omega
      · split_ifs with h2
        · omega
        · omega

set_option maxRecDepth 4000 in
/-- Witness for C7: add at the 255-to-256 boundary on a Node256 with 255
children, and remove on a Node256 with two children; the invariant is
preserved in both cases. -/
theorem c7_presence_invariant_witness :
    (255 < 256 ∧ Inv256 big256 ∧ big256.children 255 = NodePtr.null ∧
      Inv256 (Node256.add self256 big256 900 255).1) ∧
    (0 < 256 ∧ Inv256 two256 ∧ two256.children 0 ≠ NodePtr.null ∧
      two256.children_count ≠ 1 ∧ Inv256 (Node256.remove two256 0)) :=
  ⟨⟨by decide, by decide, by decide,
    c7_presence_invariant.1 self256 big256 900 255 (by decide) (by decide) (by decide)⟩,
   ⟨by decide, by decide, by decide, by decide,
    c7_presence_invariant.2 two256 0 (by decide) (by decide) (by decide) (by decide)⟩⟩

theorem first_free_slot_spec (n : Node48) (j : Nat) (hj : j < 48)
    (hnull : n.children j = NodePtr.null) :
    n.first_free_slot < 48 ∧ n.children n.first_free_slot = NodePtr.null ∧
      ∀ j', j' < n.first_free_slot → n.children j' ≠ NodePtr.null := by
  have hdef : n.first_free_slot
      = scanFrom (fun i => n.children i == NodePtr.null) 0 48 := rfl
  have hs_lt : n.first_free_slot < 48 := by
    rw [hdef]
    have := scanFrom_found (fun i => n.children i == NodePtr.null) 0 48 j
      (Nat.zero_le j) (by omega) (by simp [hnull])
    omega
  refine ⟨hs_lt, ?_, ?_⟩
  · have hp := scanFrom_pred (fun i => n.children i == NodePtr.null) 0 48
      (by rw [hdef] at hs_lt; omega)
    rw [hdef]
    simpa using hp
  · intro j' hj'
    rw [hdef] at hj'
    have := scanFrom_before (fun i => n.children i == NodePtr.null) 0 48 j'
      (Nat.zero_le j') hj'
    simpa using this

/-! ### Claim C2 -/

/-- C2: for a Node48 below capacity with child_indices[b] == 0xFF and a free
slot, add(leaf, b) stores the leaf in the lowest-index null slot s, sets
child_indices[b] = s, increments children_count, and returns an iterator
whose index is the key byte b; in particular, removing the key at slot 7 of
a full Node48 and then adding a fresh key byte reuses slot 7. -/
theorem c2_node48_add :
    (∀ self n la b, n.children_count < 48 → n.child_indices b = 255 →
      (∃ j, j < 48 ∧ n.children j = NodePtr.null) → C2Post self n la b) ∧
    ((Node48.add self48 (Node48.remove full48 85) 500 170).map
      (fun r => r.1.child_indices 170) = some 7) := by
  constructor
  · rintro self n la b hc hci ⟨j, hj, hnull⟩
    have hdef : n.first_free_slot
        = scanFrom (fun i => n.children i == NodePtr.null) 0 48 := rfl
    have hs_lt : n.first_free_slot < 48 := by
      rw [hdef]
      have := scanFrom_found (fun i => n.children i == NodePtr.null) 0 48 j
        (Nat.zero_le j) (by omega) (by simp [hnull])
      omega
    have hs_null : n.children n.first_free_slot = NodePtr.null := by
      have hp := scanFrom_pred (fun i => n.children i == NodePtr.null) 0 48
        (by rw [hdef] at hs_lt; omega)
      rw [hdef]
      simpa using hp
    have hs_min : ∀ j', j' < n.first_free_slot → n.children j' ≠ NodePtr.null := by
      intro j' hj'
      rw [hdef] at hj'
      have := scanFrom_before (fun i => n.children i == NodePtr.null) 0 48 j'
        (Nat.zero_le j') hj'
      simpa using this
    refine ⟨hs_lt, hs_null, hs_min, ?_⟩
    refine ⟨({ n with
                children := upd n.children n.first_free_slot (NodePtr.node la .LEAF),
                child_indices := upd n.child_indices b n.first_free_slot,
                children_count := inc8 n.children_count },
             ⟨NodePtr.node la .LEAF, b, self⟩), ?_, ?_, ?_, ?_, rfl, rfl, rfl⟩
    · simp only [Node48.add]
      rw [if_pos hs_lt]
    · exact upd_at _ _ _
    · exact upd_at _ _ _
    · exact inc8_small _ (by omega)
  · decide

/-- Witness for C2: the precondition holds at a one-child Node48 and byte 5,
and the post-condition follows. -/
theorem c2_node48_add_witness :
    (w48.children_count < 48 ∧ w48.child_indices 5 = 255 ∧
      (∃ j, j < 48 ∧ w48.children j = NodePtr.null)) ∧
    C2Post self48 w48 500 5 :=
  ⟨⟨by decide, by decide, by decide⟩,
   c2_node48_add.1 self48 w48 500 5 (by decide) (by decide) (by decide)⟩

/-! ### Claim C6 -/

/-- C6: for every node variant that is not full and does not contain key
byte b, add(leaf, b) followed by remove of that same byte (at the index the
returned iterator records) restores the node's observable state: key data,
child mapping and children_count. -/
theorem c6_add_remove_round_trip :
    (∀ self n h la b, 2 ≤ n.children_count → n.children_count < 4 →
      (∀ i, i < n.children_count → n.keys i ≠ b) → C6Post4 self n h la b) ∧
    (∀ self n h la b, n.children_count < 16 →
      (∀ i, i < n.children_count → n.keys i ≠ b) → C6Post16 self n h la b) ∧
    (∀ self n la b, n.children_count < 48 → n.child_indices b = 255 →
      (∃ j, j < 48 ∧ n.children j = NodePtr.null) → C6Post48 self n la b) ∧
    (∀ self n la b, n.children_count < 256 → n.children b = NodePtr.null →
      C6Post256 self n la b) := by
  refine ⟨?_, ?_, ?_, ?_⟩
  · intro self n h la b h2 h4 habs
    have hple : n.insert_pos b ≤ n.children_count := by
      unfold Node4.insert_pos
      rcases (by omega : n.children_count = 2 ∨ n.children_count = 3) with hc | hc <;>
        rw [hc] <;> split_ifs <;> omega
    have hcc : inc8 n.children_count = n.children_count + 1 := inc8_small _ (by omega)
    simp only [C6Post4, Node4.add, Node4.remove]
    refine ⟨?_, dec8_inc8 _ (by omega)⟩
    intro i hi
    rw [hcc]
    constructor
    · by_cases hip : n.insert_pos b ≤ i
      · rw [if_pos (show n.insert_pos b ≤ i ∧ i < n.children_count + 1 - 1 by omega)]
        rw [if_neg (by omega), if_neg (by omega), if_pos (by omega)]
        congr 1
      · rw [if_neg (show ¬(n.insert_pos b ≤ i ∧ i < n.children_count + 1 - 1) by omega)]
        rw [if_pos (by omega)]
    · by_cases hip : n.insert_pos b ≤ i
      · rw [if_pos (show n.insert_pos b ≤ i ∧ i < n.children_count + 1 - 1 by omega)]
        rw [if_neg (by omega), if_neg (by omega), if_pos (by omega)]
        congr 1
      · rw [if_neg (show ¬(n.insert_pos b ≤ i ∧ i < n.children_count + 1 - 1) by omega)]
        rw [if_pos (by omega)]
  · intro self n h la b h16 habs
    have hple : n.get_sorted_key_array_insert_position b ≤ n.children_count := by
      have := scanFrom_le (fun i => decide (b ≤ n.keys i)) 0 n.children_count
      unfold Node16.get_sorted_key_array_insert_position
      omega
    have hcc : inc8 n.children_count = n.children_count + 1 := inc8_small _ (by omega)
    simp only [C6Post16, Node16.add, Node16.remove]
    refine ⟨?_, dec8_inc8 _ (by omega)⟩
    intro i hi
    rw [hcc]
    constructor
    · by_cases hip : n.get_sorted_key_array_insert_position b ≤ i
      · rw [if_pos (show n.get_sorted_key_array_insert_position b ≤ i ∧
            i < n.children_count + 1 - 1 by omega)]
        rw [if_neg (by omega), if_neg (by omega), if_pos (by omega)]
        congr 1
      · rw [if_neg (show ¬(n.get_sorted_key_array_insert_position b ≤ i ∧
            i < n.children_count + 1 - 1) by omega)]
        rw [if_pos (by omega)]
    · by_cases hip : n.get_sorted_key_array_insert_position b ≤ i
      · rw [if_pos (show n.get_sorted_key_array_insert_position b ≤ i ∧
            i < n.children_count + 1 - 1 by omega)]
        rw [if_neg (by omega), if_neg (by omega), if_pos (by omega)]
        congr 1
      · rw [if_neg (show ¬(n.get_sorted_key_array_insert_position b ≤ i ∧
            i < n.children_count + 1 - 1) by omega)]
        rw [if_pos (by omega)]
  · rintro self n la b hc hci ⟨j, hj, hnull⟩
    obtain ⟨hs_lt, hs_null, hs_min⟩ := first_free_slot_spec n j hj hnull
    refine ⟨({ n with
                children := upd n.children n.first_free_slot (NodePtr.node la .LEAF),
                child_indices := upd n.child_indices b n.first_free_slot,
                children_count := inc8 n.children_count },
             ⟨NodePtr.node la .LEAF, b, self⟩), ?_, ?_, ?_, ?_⟩
    · simp only [Node48.add]
      rw [if_pos hs_lt]
    · intro a
      simp only [Node48.remove]
      by_cases hab : a = b
      · subst hab
        rw [upd_at, hci]
      · rw [upd_elsewhere _ _ _ _ hab, upd_elsewhere _ _ _ _ hab]
    · intro j'
      simp only [Node48.remove]
      rw [upd_at]
      by_cases hjs : j' = n.first_free_slot
      · subst hjs
        rw [upd_at]
        exact hs_null.symm
      · rw [upd_elsewhere _ _ _ _ hjs, upd_elsewhere _ _ _ _ hjs]
    · exact dec8_inc8 _ (by omega)
  · intro self n la b hclt hnull
    constructor
    · intro a
      simp only [Node256.add, Node256.remove]
      by_cases hab : a = b
      · subst hab
        rw [upd_at]
        exact hnull.symm
      · rw [upd_elsewhere _ _ _ _ hab, upd_elsewhere _ _ _ _ hab]
    · exact dec8_inc8 _ hclt

/-- Witness for C6: the round trip at one concrete node of each variant. -/
theorem c6_add_remove_round_trip_witness :
    C6Post4 self4 w4 h0 77 15 ∧ C6Post16 self16 w16 h0 77 15 ∧
    C6Post48 self48 w48 500 5 ∧ C6Post256 self256 two256 500 5 :=
  ⟨c6_add_remove_round_trip.1 self4 w4 h0 77 15 (by decide) (by decide) (by decide),
   c6_add_remove_round_trip.2.1 self16 w16 h0 77 15 (by decide) (by decide),
   c6_add_remove_round_trip.2.2.1 self48 w48 500 5 (by decide) (by decide) (by decide),
   c6_add_remove_round_trip.2.2.2 self256 two256 500 5 (by decide) (by decide)⟩

/-! ### Claim C3 -/

theorem insert_pos_le (n : Node4) (b : Nat) (h2 : 2 ≤ n.children_count)
    (h4 : n.children_count < 4) : n.insert_pos b ≤ n.children_count := by
  unfold Node4.insert_pos
  rcases (by omega : n.children_count = 2 ∨ n.children_count = 3) with hc | hc <;>
    rw [hc] <;> split_ifs <;> omega

theorem insert_pos_eq_count_lt (n : Node4) (b : Nat) (h2 : 2 ≤ n.children_count)
    (h4 : n.children_count < 4) :
    n.insert_pos b
      = ((List.range n.children_count).filter (fun i => decide (n.keys i < b))).length := by
  rcases (by omega : n.children_count = 2 ∨ n.children_count = 3) with hc | hc <;>
    unfold Node4.insert_pos <;> rw [hc]
  · by_cases k0 : n.keys 0 < b <;> by_cases k1 : n.keys 1 < b <;>
      simp [List.range_succ, k0, k1]
  · by_cases k0 : n.keys 0 < b <;> by_cases k1 : n.keys 1 < b <;>
      by_cases k2 : n.keys 2 < b <;> simp [List.range_succ, k0, k1, k2]

theorem insert_pos_bounds (n : Node4) (b : Nat) (h2 : 2 ≤ n.children_count)
    (h4 : n.children_count < 4)
    (hsort : ∀ j, j < n.children_count → ∀ i, i < j → n.keys i < n.keys j)
    (habs : ∀ i, i < n.children_count → n.keys i ≠ b) :
    (∀ i, i < n.insert_pos b → n.keys i < b) ∧
    (∀ i, n.insert_pos b ≤ i → i < n.children_count → b < n.keys i) := by
  have a0 := habs 0 (by omega)
  have a1 := habs 1 (by omega)
  have s01 := hsort 1 (by omega) 0 (by omega)
  rcases (by omega : n.children_count = 2 ∨ n.children_count = 3) with hc | hc
  · unfold Node4.insert_pos
    rw [hc, if_neg (show ¬((2 : Nat) = 3 ∧ n.keys 2 < b) by omega)]
    by_cases k0 : n.keys 0 < b <;> by_cases k1 : n.keys 1 < b
    · rw [if_pos k0, if_pos k1]
      exact ⟨fun i hi => by interval_cases i <;> omega, fun i hi1 hi2 => by omega⟩
    · rw [if_pos k0, if_neg k1]
      exact ⟨fun i hi => by interval_cases i <;> omega,
        fun i hi1 hi2 => by interval_cases i <;> omega⟩
    · rw [if_neg k0, if_pos k1]
      exact ⟨fun i hi => by omega, fun i hi1 hi2 => by omega⟩
    · rw [if_neg k0, if_neg k1]
      exact ⟨fun i hi => by omega, fun i hi1 hi2 => by interval_cases i <;> omega⟩
  · have a2 := habs 2 (by omega)
    have s02 := hsort 2 (by omega) 0 (by omega)
    have s12 := hsort 2 (by omega) 1 (by omega)
    unfold Node4.insert_pos
    rw [hc]
    by_cases k0 : n.keys 0 < b <;> by_cases k1 : n.keys 1 < b <;> by_cases k2 : n.keys 2 < b
    · rw [if_pos k0, if_pos k1, if_pos (show (3 : Nat) = 3 ∧ n.keys 2 < b from ⟨rfl, k2⟩)]
      exact ⟨fun i hi => by interval_cases i <;> omega, fun i hi1 hi2 => by omega⟩
    · rw [if_pos k0, if_pos k1, if_neg (show ¬((3 : Nat) = 3 ∧ n.keys 2 < b) by omega)]
      exact ⟨fun i hi => by interval_cases i <;> omega,
        fun i hi1 hi2 => by interval_cases i <;> omega⟩
    · rw [if_pos k0, if_neg k1, if_pos (show (3 : Nat) = 3 ∧ n.keys 2 < b from ⟨rfl, k2⟩)]
      exact ⟨fun i hi => by omega, fun i hi1 hi2 => by omega⟩
    · rw [if_pos k0, if_neg k1, if_neg (show ¬((3 : Nat) = 3 ∧ n.keys 2 < b) by omega)]
      exact ⟨fun i hi => by interval_cases i <;> omega,
        fun i hi1 hi2 => by interval_cases i <;> omega⟩
    · rw [if_neg k0, if_pos k1, if_pos (show (3 : Nat) = 3 ∧ n.keys 2 < b from ⟨rfl, k2⟩)]
      exact ⟨fun i hi => by omega, fun i hi1 hi2 => by omega⟩
    · rw [if_neg k0, if_pos k1, if_neg (show ¬((3 : Nat) = 3 ∧ n.keys 2 < b) by omega)]
      exact ⟨fun i hi => by omega, fun i hi1 hi2 => by omega⟩
    · rw [if_neg k0, if_neg k1, if_pos (show (3 : Nat) = 3 ∧ n.keys 2 < b from ⟨rfl, k2⟩)]
      exact ⟨fun i hi => by omega, fun i hi1 hi2 => by omega⟩
    · rw [if_neg k0, if_neg k1, if_neg (show ¬((3 : Nat) = 3 ∧ n.keys 2 < b) by omega)]
      exact ⟨fun i hi => by omega, fun i hi1 hi2 => by interval_cases i <;> omega⟩

/-- C3: for a Node4 with 2 <= children_count < 4, strictly sorted keys not
containing b (and distinct non-leaf child addresses), add(leaf, b) inserts b
at the position equal to the number of existing keys less than b, shifts
keys and children at or after that position one slot right reparenting
every shifted non-leaf child with its new index, stores a LEAF-tagged
pointer at the position, increments children_count, and leaves the
populated keys strictly sorted; scenario S1 builds keys
[0x05, 0x10, 0x20, 0x30] with children_count 4 and is_full. -/
theorem c3_node4_add :
    (∀ self n h la b, 2 ≤ n.children_count → n.children_count < 4 →
      (∀ j, j < n.children_count → ∀ i, i < j → n.keys i < n.keys j) →
      (∀ i, i < n.children_count → n.keys i ≠ b) →
      (∀ i, i < n.children_count → ∀ j, j < n.children_count → i ≠ j →
        (n.children i).isLeafTagged = false → (n.children j).isLeafTagged = false →
        (n.children i).addr ≠ (n.children j).addr) →
      C3Post self n h la b) ∧
    ((List.range 4).map s1final.1.keys = [5, 16, 32, 48] ∧
      s1final.1.children_count = 4 ∧ s1final.1.is_full = true) := by
  constructor
  · intro self n h la b h2 h4 hsort habs hdist
    obtain ⟨L1, L2⟩ := insert_pos_bounds n b h2 h4 hsort habs
    have hple := insert_pos_le n b h2 h4
    simp only [C3Post, Node4.add]
    refine ⟨insert_pos_eq_count_lt n b h2 h4, ?_, ?_, ?_, ?_, inc8_small _ (by omega),
      ?_, ?_, ?_⟩
    · intro i hi
      exact ⟨by rw [if_pos hi], by rw [if_pos hi]⟩
    · rw [if_neg (show ¬ n.insert_pos b < n.insert_pos b by omega)]
      simp
    · rw [if_neg (show ¬ n.insert_pos b < n.insert_pos b by omega)]
      simp
    · intro i hpi hic
      constructor
      · rw [if_neg (show ¬ i < n.insert_pos b by omega),
          if_neg (show ¬ i = n.insert_pos b by omega), if_pos hic]
      · rw [if_neg (show ¬ i < n.insert_pos b by omega),
          if_neg (show ¬ i = n.insert_pos b by omega), if_pos hic]
    · rw [if_neg (show ¬ n.insert_pos b < n.insert_pos b by omega)]
      simp
    · intro jj hjj ii hij
      rcases Nat.lt_trichotomy jj (n.insert_pos b) with hj | hj | hj
      · rw [if_pos (show jj < n.insert_pos b from hj),
          if_pos (show ii < n.insert_pos b by omega)]
        exact hsort jj (by omega) ii hij
      · rw [if_neg (show ¬ jj < n.insert_pos b by omega),
          if_pos (show jj = n.insert_pos b from hj),
          if_pos (show ii < n.insert_pos b by omega)]
        exact L1 ii (by omega)
      · rw [if_neg (show ¬ jj < n.insert_pos b by omega),
          if_neg (show ¬ jj = n.insert_pos b by omega),
          if_pos (show jj ≤ n.children_count by omega)]
        have hbj : b < n.keys (jj - 1) := L2 (jj - 1) (by omega) (by omega)
        rcases Nat.lt_trichotomy ii (n.insert_pos b) with hi | hi | hi
        · rw [if_pos (show ii < n.insert_pos b from hi)]
          have := L1 ii hi
          omega
        · rw [if_neg (show ¬ ii < n.insert_pos b by omega),
            if_pos (show ii = n.insert_pos b from hi)]
          omega
        · rw [if_neg (show ¬ ii < n.insert_pos b by omega),
            if_neg (show ¬ ii = n.insert_pos b by omega),
            if_pos (show ii ≤ n.children_count by omega)]
          exact hsort (jj - 1) (by omega) (ii - 1) (by omega)
    · intro i hpi hic hleaf
      have hmem : i ∈ (List.range' (n.insert_pos b + 1)
          (n.children_count - n.insert_pos b)).reverse := by
        rw [List.mem_reverse, List.mem_range'_1]
        omega
      have huniq : ∀ k, k ∈ (List.range' (n.insert_pos b + 1)
            (n.children_count - n.insert_pos b)).reverse →
          (n.children (k - 1)).isLeafTagged = false →
          (n.children (k - 1)).addr = (n.children (i - 1)).addr →
          n.children (k - 1) = n.children (i - 1) ∧ k = i := by
        intro k hk hkl hka
        rw [List.mem_reverse, List.mem_range'_1] at hk
        rcases eq_or_ne k i with rfl | hne
        · exact ⟨rfl, rfl⟩
        · exact absurd hka
            (hdist (k - 1) (by omega) (i - 1) (by omega) (by omega) hkl hleaf)
      have hres := foldl_reparent_mem self n.children
        ((List.range' (n.insert_pos b + 1) (n.children_count - n.insert_pos b)).reverse)
        h i hmem hleaf huniq
      rw [hres]
      exact ⟨rfl, rfl⟩
  · refine ⟨by decide, by decide, by decide⟩

/-- Witness for C3: the hypotheses hold at a concrete two-child Node4 and
byte 15, and the post-condition follows. -/
theorem c3_node4_add_witness :
    (2 ≤ w4.children_count ∧ w4.children_count < 4 ∧
      (∀ j, j < w4.children_count → ∀ i, i < j → w4.keys i < w4.keys j) ∧
      (∀ i, i < w4.children_count → w4.keys i ≠ 15) ∧
      (∀ i, i < w4.children_count → ∀ j, j < w4.children_count → i ≠ j →
        (w4.children i).isLeafTagged = false → (w4.children j).isLeafTagged = false →
        (w4.children i).addr ≠ (w4.children j).addr)) ∧
    C3Post self4 w4 h0 77 15 :=
  ⟨⟨by decide, by decide, by decide, by decide,
    by
      intro i hi j hj hne h1 h2
      exact absurd h1 (by simp [w4, NodePtr.isLeafTagged])⟩,
   c3_node4_add.1 self4 w4 h0 77 15 (by decide) (by decide) (by decide) (by decide)
     (by
      intro i hi j hj hne h1 h2
      exact absurd h1 (by simp [w4, NodePtr.isLeafTagged]))⟩

/-! ### Claim C8 -/

/-- C8: in a finite well-formed tree (every internal node non-empty, ranks
decreasing along non-leaf leftmost-child edges) where the root has a child
at or after the given start position, leftmost_leaf terminates within
rank + 2 iterations and returns an iterator whose tag is LEAF, taking the
given start on the first hop and start 0 afterwards. -/
theorem c8_leftmost_leaf_terminates (mem : Nat → HeapNode) (rank : Nat → Nat) (p : NodePtr)
    (start : Nat) (hwf : wfRank mem rank)
    (hroot : p.isLeafTagged = true ∨
      (leftmostChildOf p (mem p.addr) start).isSome = true) :
    ∃ it, leftmostLeafLoop mem (rank p.addr + 2) ⟨p, 0, NodePtr.null⟩ start = some it ∧
      it.node.isLeafTagged = true := by
  suffices H : ∀ r : Nat, ∀ pos : Iter, ∀ st : Nat, rank pos.node.addr ≤ r →
      (pos.node.isLeafTagged = true ∨
        (leftmostChildOf pos.node (mem pos.node.addr) st).isSome = true) →
      ∃ it, leftmostLeafLoop mem (r + 2) pos st = some it ∧ it.node.isLeafTagged = true by
    exact H (rank p.addr) ⟨p, 0, NodePtr.null⟩ start le_rfl hroot
  intro r
  induction r using Nat.strong_induction_on with
  | _ r ih =>
    intro pos st hr hcond
    by_cases hleaf : pos.node.isLeafTagged = true
    · exact ⟨pos, by simp [leftmostLeafLoop, hleaf], hleaf⟩
    · rcases hcond with hc | hc
      · exact absurd hc hleaf
      · rcases Option.isSome_iff_exists.mp hc with ⟨it0, hit0⟩
        by_cases hleaf0 : it0.node.isLeafTagged = true
        · refine ⟨it0, ?_, hleaf0⟩
          show leftmostLeafLoop mem (r + 1 + 1) pos st = some it0
          simp [leftmostLeafLoop, hleaf, hit0, hleaf0]
        · have hrank0 : rank it0.node.addr < rank pos.node.addr :=
            (hwf pos.node.addr pos.node).2 st it0 hit0 (by simpa using hleaf0)
          have hcond0 : it0.node.isLeafTagged = true ∨
              (leftmostChildOf it0.node (mem it0.node.addr) 0).isSome = true :=
            Or.inr (hwf it0.node.addr it0.node).1
          obtain ⟨it, hloop, hlf⟩ := ih (r - 1) (by omega) it0 0 (by omega) hcond0
          refine ⟨it, ?_, hlf⟩
          have hfuel : r - 1 + 2 = r + 1 := by omega
          rw [hfuel] at hloop
          show leftmostLeafLoop mem (r + 1 + 1) pos st = some it
          simpa [leftmostLeafLoop, hleaf, hit0] using hloop

/-- Witness for C8: a memory in which every node is a one-child Node4 whose
child is a leaf, with the constant rank function; starting anywhere, the
loop reaches a LEAF-tagged iterator. -/
theorem c8_leftmost_leaf_terminates_witness :
    ∃ it, leftmostLeafLoop wMem 2 ⟨NodePtr.node 7 .I4, 0, NodePtr.null⟩ 0 = some it ∧
      it.node.isLeafTagged = true :=
  c8_leftmost_leaf_terminates wMem (fun _ => 0) (NodePtr.node 7 .I4) 0
    (by
      intro a self
      constructor
      · rfl
      · intro start it hit hfalse
        simp only [wMem, leftmostChildOf, Node4.leftmost_child] at hit
        by_cases hs : start < 1
        · rw [if_pos hs] at hit
          injection hit with h'
          subst h'
          simp [NodePtr.isLeafTagged] at hfalse
        · rw [if_neg hs] at hit
          cases hit)
    (Or.inr (by decide))

end ArtNodes
